import Mathlib

/-!
Verification of the matchcode-toolkit fingerprinting core
(src/matchcode_toolkit/fingerprinting.py) against its natural-language
specification.  The Python source is shallowly embedded below: pure
functions become Lean functions, the stateful hailstorm generator becomes
explicit state passing, Python machine integers become Nat with explicit
masking, and fallible operations return Option.
-/

namespace Matchcode

/-! ## CRC32

The source hashes every n-gram bytestring with binascii.crc32 masked to 32
bits.  binascii.crc32 is the standard CRC-32 (IEEE 802.3, reflected
polynomial 0xEDB88320, initial value and final xor 0xFFFFFFFF) over a byte
sequence; we embed it directly on lists of byte values (Nat below 256).
-/

/-- One bit-step of the reflected CRC-32 computation: shift right and
conditionally xor the reflected polynomial. -/
def crc32Round (c : Nat) : Nat :=
  if c % 2 = 1 then (c / 2) ^^^ 0xEDB88320 else c / 2

/-- Fold one input byte into the CRC-32 accumulator: xor it in, then run
eight bit-steps. -/
def crc32Update (c b : Nat) : Nat :=
  crc32Round (crc32Round (crc32Round (crc32Round
    (crc32Round (crc32Round (crc32Round (crc32Round (c ^^^ (b &&& 255)))))))))

/-- The CRC-32 of a byte sequence, as computed by Python binascii.crc32 on
a bytes object (always a value below 2 to the 32). -/
def crc32 (bs : List Nat) : Nat :=
  (bs.foldl crc32Update 0xFFFFFFFF) ^^^ 0xFFFFFFFF

/-- An n-gram is a bytestring: the source code turns each n-gram of tokens
into a UTF-8 encoded byte sequence before hashing. -/
abbrev NGram := List Nat

/-- A window is a list of n-gram bytestrings, as in the source docstring of
select_windows. -/
abbrev Window := List NGram

/-- The per-element hash used by select_windows in the source:
binascii.crc32(ngram) masked with 0xffffffff. -/
def hailstormHash (ng : NGram) : Nat :=
  crc32 ng &&& 0xFFFFFFFF

/-! ## The hailstorm selector

select_windows is a Python generator.  We embed it generically over the
per-element hash function h (the source instantiates h with hailstormHash)
so that the structural lemmas are stated once; select_windows below is the
instance appearing in the source.
-/

/-- The selection rule of select_windows for one window: map the hash over
the window, take the minimum (Python min over a non-empty list), and test
whether it equals the hash at the first or at the last position.  The
source would raise on an empty window (min of an empty sequence); we
return false there, and every theorem that depends on this case carries a
non-emptiness hypothesis. -/
def windowSelected (h : NGram → Nat) (w : Window) : Bool :=
  match w.map h with
  | [] => false
  | n0 :: rest =>
    let min_hash := rest.foldl Nat.min n0
    min_hash == n0 || min_hash == (n0 :: rest).getLastD n0

/-- State-passing embedding of the body of the select_windows generator:
pos is the enumeration counter, last is the most recently yielded window
(Python variable last, None initially), and window is the most recently
seen window (the loop variable, None before the first iteration).  After
the loop the source yields the final window once more unless it compares
equal (Python list value equality) to the last yielded one. -/
def selectWindowsAux (h : NGram → Nat) (pos : Nat) (last window : Option Window) :
    List Window → List Window
  | [] => if last ≠ window then window.toList else []
  | w :: ws =>
    if windowSelected h w then
      w :: selectWindowsAux h (pos + 1) (some w) (some w) ws
    else if pos = 0 then
      w :: selectWindowsAux h (pos + 1) (some w) (some w) ws
    else
      selectWindowsAux h (pos + 1) last (some w) ws

/-- The select_windows generator for an arbitrary per-element hash. -/
def selectWindowsWith (h : NGram → Nat) (windows : List Window) : List Window :=
  selectWindowsAux h 0 none none windows

/-- select_windows from the source: the hailstorm selection over windows of
n-gram bytestrings, hashing each n-gram with masked CRC-32. -/
def select_windows (windows : List Window) : List Window :=
  selectWindowsWith hailstormHash windows

/-! Structural lemmas about the selector. -/

theorem selectWindowsAux_closed (h : NGram → Nat) (ws : List Window) :
    ∀ (pos : Nat) (l v : Window), pos ≠ 0 →
      selectWindowsAux h pos (some l) (some v) ws =
        ws.filter (windowSelected h) ++
          (if (ws.filter (windowSelected h)).getLastD l = ws.getLastD v then []
           else [ws.getLastD v]) := by
  induction ws with
  | nil =>
    intro pos l v _
    by_cases hlv : l = v <;> simp [selectWindowsAux, hlv]
  | cons w ws ih =>
    intro pos l v hpos
    by_cases hw : windowSelected h w
    · simp only [selectWindowsAux, hw, if_true, ih (pos + 1) w w (Nat.succ_ne_zero pos),
        List.filter_cons_of_pos hw, List.getLastD_cons, List.cons_append]
    · simp only [selectWindowsAux, hw, if_false, hpos, ih (pos + 1) l w (Nat.succ_ne_zero pos),
        List.filter_cons_of_neg hw, List.getLastD_cons, Bool.false_eq_true]

/-- Closed form of the selector on a non-empty window list: the head is
always emitted, every later window is emitted exactly when the selection
rule holds for it, and the final window is emitted once more at the end
unless it is value-equal to the most recently emitted window. -/
theorem selectWindowsWith_cons (h : NGram → Nat) (w : Window) (ws : List Window) :
    selectWindowsWith h (w :: ws) =
      w :: (ws.filter (windowSelected h) ++
        (if (ws.filter (windowSelected h)).getLastD w = ws.getLastD w then []
         else [ws.getLastD w])) := by
  by_cases hw : windowSelected h w <;>
    simp [selectWindowsWith, selectWindowsAux, hw,
      selectWindowsAux_closed h ws 1 w w Nat.one_ne_zero]

theorem selectWindowsWith_nil (h : NGram → Nat) : selectWindowsWith h [] = [] := rfl

theorem getLastD_mem {α : Type} (l : List α) (d : α) (hl : l ≠ []) : l.getLastD d ∈ l := by
  rw [List.getLastD_eq_getLast?, List.getLast?_eq_getLast l hl, Option.getD_some]
  exact List.getLast_mem hl

theorem getLastD_eq_getLast {α : Type} (l : List α) (d : α) (hl : l ≠ []) :
    l.getLastD d = l.getLast hl := by
  rw [List.getLastD_eq_getLast?, List.getLast?_eq_getLast l hl, Option.getD_some]

/-- If the last window of ws fails the selection rule, filtering ws by the
rule is the same as filtering away the last element first. -/
theorem filter_eq_filter_dropLast (h : NGram → Nat) (ws : List Window) (hws : ws ≠ [])
    (hsel : windowSelected h (ws.getLast hws) = false) :
    ws.filter (windowSelected h) = ws.dropLast.filter (windowSelected h) := by
  conv_lhs => rw [← List.dropLast_append_getLast hws]
  rw [List.filter_append]
  simp [hsel]

theorem selectWindowsWith_sublist (h : NGram → Nat) (ws : List Window) :
    (selectWindowsWith h ws).Sublist ws := by
  cases ws with
  | nil => simp [selectWindowsWith_nil]
  | cons w ws =>
    rw [selectWindowsWith_cons]
    refine List.Sublist.cons₂ w ?_
    by_cases hif : (ws.filter (windowSelected h)).getLastD w = ws.getLastD w
    · rw [if_pos hif, List.append_nil]
      exact List.filter_sublist ws
    · rw [if_neg hif]
      rcases eq_or_ne ws [] with rfl | hws
      · simp at hif
      · have hz : ws.getLastD w = ws.getLast hws := getLastD_eq_getLast ws w hws
        have hselz : windowSelected h (ws.getLast hws) = false := by
          by_contra hc
          have h1 : windowSelected h (ws.getLast hws) = true := by
            simpa using hc
          have hfil : ws.filter (windowSelected h) =
              ws.dropLast.filter (windowSelected h) ++ [ws.getLast hws] := by
            conv_lhs => rw [← List.dropLast_append_getLast hws]
            rw [List.filter_append]
            simp [h1]
          rw [hfil, List.getLastD_concat, hz] at hif
          exact hif rfl
        rw [filter_eq_filter_dropLast h ws hws hselz, hz]
        have hsub : (ws.dropLast.filter (windowSelected h) ++ [ws.getLast hws]).Sublist
            (ws.dropLast ++ [ws.getLast hws]) :=
          (List.filter_sublist _).append (List.Sublist.refl _)
        rw [List.dropLast_append_getLast hws] at hsub
        exact hsub

theorem selectWindowsWith_head_mem (h : NGram → Nat) (w : Window) (ws : List Window) :
    w ∈ selectWindowsWith h (w :: ws) := by
  rw [selectWindowsWith_cons]
  exact List.mem_cons_self w _

theorem selectWindowsWith_last_mem (h : NGram → Nat) (w : Window) (ws : List Window) :
    (w :: ws).getLastD [] ∈ selectWindowsWith h (w :: ws) := by
  rw [selectWindowsWith_cons, List.getLastD_cons]
  rcases eq_or_ne ws [] with rfl | hws
  · simp
  · have hz : ws.getLastD w = ws.getLast hws := getLastD_eq_getLast ws w hws
    by_cases hif : (ws.filter (windowSelected h)).getLastD w = ws.getLastD w
    · rw [if_pos hif]
      by_cases hsel : windowSelected h (ws.getLastD w)
      · have hmem : ws.getLastD w ∈ ws.filter (windowSelected h) :=
          List.mem_filter.mpr ⟨getLastD_mem ws w hws, hsel⟩
        exact List.mem_cons_of_mem w (List.mem_append_left _ hmem)
      · have hselz : windowSelected h (ws.getLast hws) = false := by
          rw [← hz]
          simpa using hsel
        have hfil := filter_eq_filter_dropLast h ws hws hselz
        rw [hfil] at hif
        rcases eq_or_ne (ws.dropLast.filter (windowSelected h)) [] with hnil | hne
        · rw [hnil] at hif
          simp only [List.getLastD_nil] at hif
          rw [← hif]
          exact List.mem_cons_self w _
        · have hmem : ws.getLastD w ∈ ws.dropLast.filter (windowSelected h) := by
            rw [← hif]
            exact getLastD_mem _ w hne
          rw [← hfil] at hmem
          exact List.mem_cons_of_mem w (List.mem_append_left _ hmem)
    · rw [if_neg hif]
      refine List.mem_cons_of_mem w (List.mem_append_right _ ?_)
      exact List.mem_singleton.mpr rfl

theorem getLastD_map {α β : Type} (f : α → β) (l : List α) (d : α) :
    (l.map f).getLastD (f d) = f (l.getLastD d) := by
  induction l generalizing d with
  | nil => rfl
  | cons a l ih => simp only [List.map_cons, List.getLastD_cons, ih]

/-- The selection rule, restated through the list-minimum: a non-empty
window passes the rule exactly when the minimum of the per-element hashes
is the hash of the first element or the hash of the last element. -/
theorem windowSelected_iff (h : NGram → Nat) (v : Window) (hv : v ≠ []) :
    windowSelected h v = true ↔
      ((v.map h).min? = some (h (v.headD [])) ∨
       (v.map h).min? = some (h (v.getLastD []))) := by
  cases v with
  | nil => exact absurd rfl hv
  | cons x xs =>
    show ((xs.map h).foldl Nat.min (h x) == h x ||
        (xs.map h).foldl Nat.min (h x) == (h x :: xs.map h).getLastD (h x)) = true ↔ _
    have hmin : ((x :: xs).map h).min? = some ((xs.map h).foldl Nat.min (h x)) := rfl
    rw [hmin]
    simp only [Bool.or_eq_true, beq_iff_eq, Option.some.injEq, List.headD_cons,
      List.getLastD_cons, List.getLastD_cons, getLastD_map]

/-- Claim C1: for every non-empty finite sequence of windows given to
select_windows, the output is a subsequence of the input preserving
relative order (hence its length is at most the input length), both the
first and the last input window appear as values in the output, and the
empty input produces the empty output. -/
theorem select_windows_subsequence_and_boundaries :
    select_windows [] = [] ∧
    ∀ (w : Window) (ws : List Window),
      (select_windows (w :: ws)).Sublist (w :: ws) ∧
      (select_windows (w :: ws)).length ≤ (w :: ws).length ∧
      w ∈ select_windows (w :: ws) ∧
      (w :: ws).getLastD [] ∈ select_windows (w :: ws) := by
  refine ⟨rfl, fun w ws => ?_⟩
  have hsub := selectWindowsWith_sublist hailstormHash (w :: ws)
  exact ⟨hsub, hsub.length_le, selectWindowsWith_head_mem hailstormHash w ws,
    selectWindowsWith_last_mem hailstormHash w ws⟩

/-- Claim C2: on a non-empty input the selector emits the window at
position 0 unconditionally, emits every later window exactly when the
minimum of the masked CRC-32 hashes of its n-gram elements occurs at the
window's first or last element (both ends checked, OR semantics), and
finally re-emits the last window unless it is value-equal to the most
recently emitted one; the second conjunct identifies the filtering
predicate with that minimum-hash rule. -/
theorem select_windows_selection_rule :
    (∀ (w : Window) (ws : List Window),
      select_windows (w :: ws) =
        w :: (ws.filter (windowSelected hailstormHash) ++
          (if (ws.filter (windowSelected hailstormHash)).getLastD w = ws.getLastD w then []
           else [ws.getLastD w]))) ∧
    ∀ (v : Window), v ≠ [] →
      (windowSelected hailstormHash v = true ↔
        ((v.map hailstormHash).min? = some (hailstormHash (v.headD [])) ∨
         (v.map hailstormHash).min? = some (hailstormHash (v.getLastD [])))) :=
  ⟨fun w ws => selectWindowsWith_cons hailstormHash w ws,
   fun v hv => windowSelected_iff hailstormHash v hv⟩

/-- Witness for claim C2 at the concrete window [[0],[2],[1]]. -/
theorem select_windows_selection_rule_witness :
    ([[0], [2], [1]] : Window) ≠ [] ∧
    (windowSelected hailstormHash [[0], [2], [1]] = true ↔
      ((([[0], [2], [1]] : Window).map hailstormHash).min? =
          some (hailstormHash (([[0], [2], [1]] : Window).headD [])) ∨
       (([[0], [2], [1]] : Window).map hailstormHash).min? =
          some (hailstormHash (([[0], [2], [1]] : Window).getLastD [])))) :=
  ⟨by decide, select_windows_selection_rule.2 [[0], [2], [1]] (by decide)⟩

/-- Claim C10: a single-window input is yielded exactly once, never twice;
and the forced final emission compares the last window by value to the
most recently yielded window, so a final window failing the selection rule
that is value-equal to the last yielded window is not emitted a second
time. -/
theorem select_windows_no_double_yield :
    (∀ w : Window, select_windows [w] = [w]) ∧
    (∀ w : Window, windowSelected hailstormHash w = false → select_windows [w, w] = [w]) := by
  constructor
  · intro w
    rw [select_windows, selectWindowsWith_cons]
    simp
  · intro w hw
    rw [select_windows, selectWindowsWith_cons]
    simp [List.filter_cons, hw]

/-- Witness for claim C10: the window [[0],[2],[1]] has its minimum hash
strictly inside, so it fails the selection rule, and the duplicated pair
input still yields only one copy. -/
theorem select_windows_no_double_yield_witness :
    windowSelected hailstormHash [[0], [2], [1]] = false ∧
    select_windows [[[0], [2], [1]], [[0], [2], [1]]] = [[[0], [2], [1]]] :=
  ⟨by decide, select_windows_no_double_yield.2 [[0], [2], [1]] (by decide)⟩

/-! ## The fingerprint codec

_create_directory_fingerprint renders the count of hashed inputs with the
Python format string applying percent-08x (lowercase hex, zero padded to
at least eight digits, more digits if the value needs them) and prepends
it to the hex digest; split_fingerprint parses the first eight characters
back with int(s, 16) and returns the rest verbatim.
-/

/-- The lowercase hex digit character for a value below 16, as produced by
the Python percent-x format. -/
def hexDigitChar (n : Nat) : Char :=
  if n < 10 then Char.ofNat (48 + n) else Char.ofNat (87 + n)

/-- Hex digits of n, most significant first, empty for zero.  The first
argument is structural fuel; it is always called with fuel at least n, and
the digit count of n never exceeds n, so the fuel never runs out. -/
def hexDigitsAux : Nat → Nat → List Char
  | _, 0 => []
  | 0, _ + 1 => []
  | f + 1, n + 1 => hexDigitsAux f ((n + 1) / 16) ++ [hexDigitChar ((n + 1) % 16)]

/-- The Python format percent-08x: lowercase hex digits of n, zero padded
on the left to a minimum width of eight. -/
def percent08x (n : Nat) : String :=
  let ds := if n = 0 then ['0'] else hexDigitsAux n n
  ⟨List.replicate (8 - ds.length) '0' ++ ds⟩

/-- Whether a character is a hex digit accepted by Python int(s, 16):
a decimal digit, a lowercase a to f, or an uppercase A to F, written out
on the code points. -/
def isHexDigit (c : Char) : Bool :=
  let n := c.toNat
  (48 ≤ n && n ≤ 57) || (97 ≤ n && n ≤ 102) || (65 ≤ n && n ≤ 70)

/-- The numeric value of a hex digit character, on the code points. -/
def hexVal (c : Char) : Nat :=
  let n := c.toNat
  if n ≤ 57 then n - 48 else if 97 ≤ n then n - 87 else n - 55

/-- Accumulate the value of a hex digit string. -/
def parseHexNat (cs : List Char) : Nat :=
  cs.foldl (fun a c => 16 * a + hexVal c) 0

/-- Python int(s, 16) on a plain string of hex digits: fails (raises
ValueError) on an empty string or on a non-hex character, otherwise
returns the value. -/
def parseHexOpt (cs : List Char) : Option Nat :=
  if cs ≠ [] ∧ cs.all isHexDigit then some (parseHexNat cs) else none

/-- split_fingerprint from the source: parse the first eight characters of
the fingerprint as a hex integer (the indexed elements count) and return
the remainder verbatim as the bah128 digest. -/
def split_fingerprint (directory_fingerprint : String) : Option (Nat × String) :=
  match parseHexOpt (directory_fingerprint.toList.take 8) with
  | some n => some (n, ⟨directory_fingerprint.toList.drop 8⟩)
  | none => none

theorem hexDigitChar_spec : ∀ d < 16, isHexDigit (hexDigitChar d) = true ∧
    hexVal (hexDigitChar d) = d := by decide

theorem hexDigitsAux_zero (f : Nat) : hexDigitsAux f 0 = [] := by
  cases f <;> rfl

theorem parseHexNat_concat (cs : List Char) (c : Char) :
    parseHexNat (cs ++ [c]) = 16 * parseHexNat cs + hexVal c := by
  simp [parseHexNat, List.foldl_append]

theorem hexDigitsAux_parse :
    ∀ (fuel n : Nat), 0 < n → n ≤ fuel →
      parseHexNat (hexDigitsAux fuel n) = n ∧
      (hexDigitsAux fuel n).all isHexDigit = true := by
  intro fuel
  induction fuel with
  | zero => intro n hn hle; omega
  | succ f ih =>
    intro n hn hle
    obtain ⟨m, rfl⟩ : ∃ m, n = m + 1 := ⟨n - 1, by omega⟩
    have heq : hexDigitsAux (f + 1) (m + 1) =
        hexDigitsAux f ((m + 1) / 16) ++ [hexDigitChar ((m + 1) % 16)] := rfl
    have hmod := hexDigitChar_spec ((m + 1) % 16) (Nat.mod_lt _ (by norm_num))
    rcases Nat.eq_zero_or_pos ((m + 1) / 16) with hq | hq
    · have hlt : m + 1 < 16 := by omega
      rw [heq, hq, hexDigitsAux_zero]
      constructor
      · rw [parseHexNat_concat, hmod.2]
        simp only [parseHexNat, List.foldl_nil]
        omega
      · simp [hmod.1]
    · have hqle : (m + 1) / 16 ≤ f := by
        have := Nat.div_lt_self (Nat.succ_pos m) (by norm_num : 1 < 16)
        omega
      obtain ⟨hval, hall⟩ := ih ((m + 1) / 16) hq hqle
      rw [heq]
      constructor
      · rw [parseHexNat_concat, hval, hmod.2]
        omega
      · rw [List.all_append, hall]
        simp [hmod.1]

theorem hexDigitsAux_length :
    ∀ (k fuel n : Nat), n < 16 ^ k → (hexDigitsAux fuel n).length ≤ k := by
  intro k
  induction k with
  | zero =>
    intro fuel n hn
    interval_cases n
    rw [hexDigitsAux_zero]
    simp
  | succ k ih =>
    intro fuel n hn
    cases fuel with
    | zero => cases n <;> simp [hexDigitsAux]
    | succ f =>
      cases n with
      | zero => simp [hexDigitsAux]
      | succ m =>
        show (hexDigitsAux f ((m + 1) / 16) ++ [hexDigitChar ((m + 1) % 16)]).length ≤ k + 1
        have hdiv : (m + 1) / 16 < 16 ^ k := by
          rw [Nat.div_lt_iff_lt_mul (by norm_num : 0 < 16)]
          calc m + 1 < 16 ^ (k + 1) := hn
          _ = 16 ^ k * 16 := by ring
        have := ih f ((m + 1) / 16) hdiv
        simp only [List.length_append, List.length_cons, List.length_nil]
        omega

theorem parseHexNat_zeros (k : Nat) (cs : List Char) :
    parseHexNat (List.replicate k '0' ++ cs) = parseHexNat cs := by
  induction k with
  | zero => simp
  | succ k ih =>
    rw [List.replicate_succ]
    show parseHexNat ('0' :: (List.replicate k '0' ++ cs)) = _
    simp only [parseHexNat, List.foldl_cons] at ih ⊢
    have : (16 * 0 + hexVal '0') = 0 := by decide
    rw [this]
    exact ih

theorem percent08x_spec (n : Nat) (hn : n < 2 ^ 32) :
    (percent08x n).toList.length = 8 ∧ parseHexOpt (percent08x n).toList = some n := by
  have hds : parseHexNat (if n = 0 then ['0'] else hexDigitsAux n n) = n ∧
      (if n = 0 then ['0'] else hexDigitsAux n n).all isHexDigit = true ∧
      (if n = 0 then ['0'] else hexDigitsAux n n).length ≤ 8 ∧
      (if n = 0 then ['0'] else hexDigitsAux n n) ≠ [] := by
    rcases Nat.eq_zero_or_pos n with rfl | hpos
    · refine ⟨by decide, by decide, by decide, by decide⟩
    · rw [if_neg (Nat.pos_iff_ne_zero.mp hpos)]
      obtain ⟨hval, hall⟩ := hexDigitsAux_parse n n hpos le_rfl
      have hlen : (hexDigitsAux n n).length ≤ 8 := by
        apply hexDigitsAux_length 8 n n
        calc n < 2 ^ 32 := hn
        _ = 16 ^ 8 := by norm_num
      refine ⟨hval, hall, hlen, ?_⟩
      intro hnil
      rw [hnil] at hval
      simp [parseHexNat] at hval
      omega
  obtain ⟨hval, hall, hlen, hne⟩ := hds
  set ds := if n = 0 then ['0'] else hexDigitsAux n n with hdsdef
  have htl : (percent08x n).toList = List.replicate (8 - ds.length) '0' ++ ds := rfl
  constructor
  · rw [htl]
    simp only [List.length_append, List.length_replicate]
    omega
  · rw [htl]
    unfold parseHexOpt
    rw [if_pos]
    · rw [parseHexNat_zeros, hval]
    · constructor
      · intro habs
        rcases List.append_eq_nil.mp habs with ⟨-, h2⟩
        exact hne h2
      · rw [List.all_append, hall]
        have : (List.replicate (8 - ds.length) '0').all isHexDigit = true := by
          rw [List.all_eq_true]
          intro c hc
          rw [List.eq_of_mem_replicate hc]
          decide
        rw [this]
        rfl

theorem split_fingerprint_encode (n : Nat) (d : String) (hn : n < 2 ^ 32) :
    split_fingerprint (percent08x n ++ d) = some (n, d) := by
  obtain ⟨h8, hp⟩ := percent08x_spec n hn
  have hdata : (percent08x n ++ d).toList = (percent08x n).toList ++ d.toList :=
    String.data_append _ _
  have htake : ((percent08x n).toList ++ d.toList).take 8 = (percent08x n).toList := by
    rw [← h8]
    exact List.take_left _ _
  have hdrop : ((percent08x n).toList ++ d.toList).drop 8 = d.toList := by
    rw [← h8]
    exact List.drop_left _ _
  unfold split_fingerprint
  rw [hdata, htake, hdrop, hp]
  cases d
  rfl

/-- Claim C3: for every n below 2^32 and every 32-character hex digest d,
split_fingerprint inverts the encoding used by
_create_directory_fingerprint, namely the concatenation of the 8-digit
zero-padded lowercase hex rendering of n with d, returning exactly (n, d). -/
theorem split_fingerprint_roundtrip (n : Nat) (d : String) (hn : n < 2 ^ 32)
    (_hd : d.toList.length = 32) : split_fingerprint (percent08x n ++ d) = some (n, d) :=
  split_fingerprint_encode n d hn

/-- Witness for claim C3 at n = 2 and a concrete 32-character digest. -/
theorem split_fingerprint_roundtrip_witness :
    2 < 2 ^ 32 ∧ ("abcdef0123456789abcdef0123456789" : String).toList.length = 32 ∧
    split_fingerprint (percent08x 2 ++ "abcdef0123456789abcdef0123456789") =
      some (2, "abcdef0123456789abcdef0123456789") :=
  ⟨by norm_num, by decide,
   split_fingerprint_roundtrip 2 "abcdef0123456789abcdef0123456789" (by norm_num) (by decide)⟩

/-! ## Halohash chunking

create_halohash_chunks slices the digest string at character positions 8,
16, 24 and 32 and hex-decodes each slice with binascii.unhexlify, which
raises on an odd-length slice or on a non-hex character and is never given
more than the first 32 characters of the input.
-/

/-- Python binascii.unhexlify on a character string: pairs of hex digits
become bytes; an odd-length string or a non-hex character raises, which we
model as none. -/
def unhexlify : List Char → Option (List Nat)
  | [] => some []
  | [_] => none
  | c1 :: c2 :: rest =>
    if isHexDigit c1 && isHexDigit c2 then
      match unhexlify rest with
      | some bs => some ((16 * hexVal c1 + hexVal c2) :: bs)
      | none => none
    else none

/-- hexstring_to_binarray from the source: unhexlify wrapped in a
bytearray, which we model as the list of byte values. -/
def hexstring_to_binarray (hex_string : List Char) : Option (List Nat) :=
  unhexlify hex_string

/-- create_halohash_chunks from the source: slice the digest at positions
[0:8], [8:16], [16:24], [24:32] and hex-decode each slice; the first
failing slice propagates as the raised error. -/
def create_halohash_chunks (bah128 : String) :
    Option (List Nat × List Nat × List Nat × List Nat) :=
  let cs := bah128.toList
  match hexstring_to_binarray (cs.take 8), hexstring_to_binarray ((cs.drop 8).take 8),
      hexstring_to_binarray ((cs.drop 16).take 8), hexstring_to_binarray ((cs.drop 24).take 8) with
  | some c1, some c2, some c3, some c4 => some (c1, c2, c3, c4)
  | _, _, _, _ => none

/-- Hex-encode a byte list to lowercase hex characters (the inverse
direction used to state the round-trip). -/
def bytesToHex : List Nat → List Char
  | [] => []
  | b :: bs => hexDigitChar (b / 16) :: hexDigitChar (b % 16) :: bytesToHex bs

/-- The sixteen lowercase hex digit characters, in value order. -/
def lowerHexDigits : List Char :=
  (List.range 16).map hexDigitChar

/-- Whether a character is a lowercase hex digit, the alphabet actually
produced by the hexdigest of the similarity hash. -/
def isLowerHexDigit (c : Char) : Bool :=
  lowerHexDigits.contains c

theorem lowerHex_spec (c : Char) (h : isLowerHexDigit c = true) :
    isHexDigit c = true ∧ hexVal c < 16 ∧ hexDigitChar (hexVal c) = c := by
  have hmem : c ∈ (List.range 16).map hexDigitChar := by
    simpa [isLowerHexDigit, lowerHexDigits] using h
  obtain ⟨d, hd, rfl⟩ := List.mem_map.mp hmem
  have hd16 : d < 16 := List.mem_range.mp hd
  obtain ⟨h1, h2⟩ := hexDigitChar_spec d hd16
  refine ⟨h1, ?_, ?_⟩
  · rw [h2]
    exact hd16
  · rw [h2]

theorem bytesToHex_append (bs1 bs2 : List Nat) :
    bytesToHex (bs1 ++ bs2) = bytesToHex bs1 ++ bytesToHex bs2 := by
  induction bs1 with
  | nil => rfl
  | cons b bs ih => simp [bytesToHex, ih]

theorem unhexlify_roundtrip :
    ∀ (k : Nat) (cs : List Char), cs.length ≤ k → (∀ c ∈ cs, isLowerHexDigit c = true) →
      cs.length % 2 = 0 →
      ∃ bs, unhexlify cs = some bs ∧ bytesToHex bs = cs ∧ 2 * bs.length = cs.length := by
  intro k
  induction k with
  | zero =>
    intro cs hlen _ _
    have : cs = [] := List.length_eq_zero.mp (Nat.le_zero.mp hlen)
    subst this
    exact ⟨[], rfl, rfl, rfl⟩
  | succ k ih =>
    intro cs hlen hhex hpar
    match cs with
    | [] => exact ⟨[], rfl, rfl, rfl⟩
    | [c] => simp at hpar
    | c1 :: c2 :: rest =>
      obtain ⟨hd1, hv1, hc1⟩ := lowerHex_spec c1 (hhex c1 (by simp))
      obtain ⟨hd2, hv2, hc2⟩ := lowerHex_spec c2 (hhex c2 (by simp))
      have hrest : ∃ bs, unhexlify rest = some bs ∧ bytesToHex bs = rest ∧
          2 * bs.length = rest.length := by
        refine ih rest ?_ (fun c hc => hhex c (by simp [hc])) ?_
        · have h1 : (c1 :: c2 :: rest).length ≤ k + 1 := hlen
          simp only [List.length_cons] at h1
          omega
        · have h2 : (c1 :: c2 :: rest).length % 2 = 0 := hpar
          simp only [List.length_cons] at h2
          omega
      obtain ⟨bs, hbs, hback, hblen⟩ := hrest
      refine ⟨(16 * hexVal c1 + hexVal c2) :: bs, ?_, ?_, ?_⟩
      · show unhexlify (c1 :: c2 :: rest) = _
        rw [unhexlify, hd1, hd2]
        simp [hbs]
      · have hdiv : (16 * hexVal c1 + hexVal c2) / 16 = hexVal c1 := by omega
        have hmod : (16 * hexVal c1 + hexVal c2) % 16 = hexVal c2 := by omega
        simp [bytesToHex, hdiv, hmod, hc1, hc2, hback]
      · simp only [List.length_cons]
        omega

/-- Counterexample to claim C4 as stated: the empty string is not a
32-hex-character digest, yet create_halohash_chunks does not fail on it;
each of the four slices is empty, unhexlify accepts the empty string, and
four empty byte buffers are returned. -/
theorem create_halohash_chunks_empty_input_accepted :
    ("" : String).toList.length ≠ 32 ∧
    create_halohash_chunks "" = some ([], [], [], []) :=
  ⟨by decide, rfl⟩

/-- Claim C4, amended: create_halohash_chunks does not reject every input
that is not exactly 32 hex characters (the empty string, for example,
yields four empty buffers, and input beyond position 32 is ignored); it
fails exactly when one of the four 8-character slices is malformed.  For
every 32-character lowercase-hex digest it returns 4 byte buffers of 4
bytes each whose concatenation hex-encodes back to the original digest. -/
theorem create_halohash_chunks_valid (s : String) (h32 : s.toList.length = 32)
    (hhex : ∀ c ∈ s.toList, isLowerHexDigit c = true) :
    ∃ b1 b2 b3 b4, create_halohash_chunks s = some (b1, b2, b3, b4) ∧
      b1.length = 4 ∧ b2.length = 4 ∧ b3.length = 4 ∧ b4.length = 4 ∧
      bytesToHex (b1 ++ b2 ++ b3 ++ b4) = s.toList := by
  set cs := s.toList with hcs
  have slice_spec : ∀ k : Nat, k + 8 ≤ 32 →
      ∃ bs, unhexlify ((cs.drop k).take 8) = some bs ∧
        bytesToHex bs = (cs.drop k).take 8 ∧ bs.length = 4 := by
    intro k hk
    have hlen : ((cs.drop k).take 8).length = 8 := by
      simp [List.length_take, List.length_drop, h32]
      omega
    have hsub : ∀ c ∈ (cs.drop k).take 8, isLowerHexDigit c = true := by
      intro c hc
      exact hhex c (List.mem_of_mem_drop (List.mem_of_mem_take hc))
    obtain ⟨bs, h1, h2, h3⟩ := unhexlify_roundtrip 8 _ (le_of_eq hlen) hsub
      (by rw [hlen])
    exact ⟨bs, h1, h2, by omega⟩
  obtain ⟨b1, hu1, hb1, hl1⟩ := slice_spec 0 (by norm_num)
  obtain ⟨b2, hu2, hb2, hl2⟩ := slice_spec 8 (by norm_num)
  obtain ⟨b3, hu3, hb3, hl3⟩ := slice_spec 16 (by norm_num)
  obtain ⟨b4, hu4, hb4, hl4⟩ := slice_spec 24 (by norm_num)
  have hu1' : unhexlify (cs.take 8) = some b1 := by simpa using hu1
  refine ⟨b1, b2, b3, b4, ?_, hl1, hl2, hl3, hl4, ?_⟩
  · show (match hexstring_to_binarray (cs.take 8), hexstring_to_binarray ((cs.drop 8).take 8),
        hexstring_to_binarray ((cs.drop 16).take 8), hexstring_to_binarray ((cs.drop 24).take 8) with
      | some c1, some c2, some c3, some c4 => some (c1, c2, c3, c4)
      | _, _, _, _ => none) = some (b1, b2, b3, b4)
    rw [hexstring_to_binarray, hexstring_to_binarray, hexstring_to_binarray,
      hexstring_to_binarray, hu1', hu2, hu3, hu4]
  · have hd24 : (cs.drop 24).take 8 = cs.drop 24 := by
      apply List.take_of_length_le
      simp [List.length_drop, h32]
    have hsplit3 : (cs.drop 16).take 8 ++ cs.drop 24 = cs.drop 16 := by
      have := List.take_append_drop 8 (cs.drop 16)
      rwa [List.drop_drop] at this
    have hsplit2 : (cs.drop 8).take 8 ++ cs.drop 16 = cs.drop 8 := by
      have := List.take_append_drop 8 (cs.drop 8)
      rwa [List.drop_drop] at this
    have hsplit1 : cs.take 8 ++ cs.drop 8 = cs := List.take_append_drop 8 cs
    rw [bytesToHex_append, bytesToHex_append, bytesToHex_append, hb1, hb2, hb3, hb4]
    have hb1' : (cs.drop 0).take 8 = cs.take 8 := by simp
    rw [hb1'] at *
    simp only [List.append_assoc]
    calc cs.take 8 ++ ((cs.drop 8).take 8 ++ ((cs.drop 16).take 8 ++ (cs.drop 24).take 8)) =
        cs.take 8 ++ ((cs.drop 8).take 8 ++ ((cs.drop 16).take 8 ++ cs.drop 24)) := by
          rw [hd24]
      _ = cs.take 8 ++ ((cs.drop 8).take 8 ++ cs.drop 16) := by rw [hsplit3]
      _ = cs.take 8 ++ cs.drop 8 := by rw [hsplit2]
      _ = cs := hsplit1

/-- Witness for the amended claim C4 at the digest of end-to-end scenario D. -/
theorem create_halohash_chunks_valid_witness :
    ("00112233445566778899aabbccddeeff" : String).toList.length = 32 ∧
    ∃ b1 b2 b3 b4,
      create_halohash_chunks "00112233445566778899aabbccddeeff" = some (b1, b2, b3, b4) ∧
      b1.length = 4 ∧ b2.length = 4 ∧ b3.length = 4 ∧ b4.length = 4 ∧
      bytesToHex (b1 ++ b2 ++ b3 ++ b4) =
        ("00112233445566778899aabbccddeeff" : String).toList :=
  ⟨by decide, create_halohash_chunks_valid _ (by decide) (by decide)⟩

/-! ## The tokenizer

The source compiles the regex query_pattern, the complement of underscore
and non-word characters, and word_splitter is its findall: the maximal
runs of word characters, with underscore, punctuation and whitespace
acting as separators.  The Unicode word-character classification of the
external regex engine and the Unicode per-character lowercase mapping of
str.lower() are external collaborators: they enter the embedding as the
parameters p and lower, and the structural theorems below are proved for
every instantiation of these parameters, hence in particular for the true
Unicode tables.  isTokenChar below is the ASCII fragment of the class,
used only to evaluate concrete ASCII inputs, on which the fragment and
the full tables agree.
-/

/-- The ASCII fragment of the character class of the query pattern regex:
on ASCII characters the word-minus-underscore class of the external
engine is exactly letters and digits. -/
def isTokenChar (c : Char) : Bool := c.isAlphanum

/-- Attach a character of the class p to the front of the already split
remainder: if the remainder of the text begins with another character of
the class the run continues, otherwise a fresh single-character run
starts. -/
def glueRun (p : Char → Bool) (c : Char) (cs : List Char) (r : List (List Char)) :
    List (List Char) :=
  match cs, r with
  | c2 :: _, t :: ts => if p c2 then (c :: t) :: ts else [c] :: t :: ts
  | _, r => [c] :: r

/-- word_splitter from the source, the findall of the query pattern over
the word-character class p of the external regex engine: a left-to-right
scan collecting the maximal runs of characters of the class. -/
def word_splitter (p : Char → Bool) : List Char → List (List Char)
  | [] => []
  | c :: cs => if p c then glueRun p c cs (word_splitter p cs) else word_splitter p cs

/-- The inner _tokenizer from the source: empty input gives the empty
list, otherwise the split tokens with empty matches discarded. -/
def _tokenizer (p : Char → Bool) (text : String) : List String :=
  if text.data.isEmpty then []
  else ((word_splitter p text.data).map (fun t => (⟨t⟩ : String))).filter (fun t => t ≠ "")

/-- tokenizer from the source, over the external word-character class p
and the external per-character lowercase mapping lower of Python
str.lower(): lowercase the text, then split. -/
def tokenizer_with (p : Char → Bool) (lower : Char → Char) (text : String) : List String :=
  _tokenizer p ⟨text.data.map lower⟩

/-- The source tokenizer instantiated at the ASCII fragment of the
external tables (Char.toLower is the ASCII fragment of str.lower).  Every
concrete input evaluated through this instance below is ASCII, where the
fragment agrees with the engine. -/
def tokenizer (text : String) : List String :=
  tokenizer_with isTokenChar Char.toLower text

/-- The tokenizer lifted to an optional argument.  Passing Python None to
tokenizer calls None.lower(), which raises AttributeError; only the inner
_tokenizer guards falsy input.  The raised error is modelled as none; it
occurs before the external lowercase and word-class tables are consulted,
so the instantiation chosen in the some branch is immaterial to it. -/
def tokenizerOpt : Option String → Option (List String)
  | none => none
  | some text => some (tokenizer text)

/-- The scanner agrees with splitting on separator characters and
discarding the empty pieces, for any character class: a character outside
the class starts no run. -/
theorem glueRun_sep (p : Char → Bool) (c c2 : Char) (cs2 : List Char) (r : List (List Char))
    (hc2 : p c2 = false) : glueRun p c (c2 :: cs2) r = [c] :: r := by
  cases r <;> simp [glueRun, hc2]

theorem word_splitter_eq (p : Char → Bool) (cs : List Char) :
    word_splitter p cs =
      (cs.splitOnP (fun c => !p c)).filter (fun t => !t.isEmpty) := by
  induction cs with
  | nil => rfl
  | cons c cs ih =>
    by_cases hc : p c
    · rw [List.splitOnP_cons, if_neg (by simp [hc])]
      cases cs with
      | nil => simp [word_splitter, glueRun, hc, List.splitOnP_nil]
      | cons c2 cs2 =>
        by_cases hc2 : p c2
        · obtain ⟨v, vs, hsplit2⟩ : ∃ v vs,
              cs2.splitOnP (fun c => !p c) = v :: vs :=
            List.exists_cons_of_ne_nil (List.splitOnP_ne_nil _ cs2)
          have hcs : (c2 :: cs2).splitOnP (fun c => !p c) = (c2 :: v) :: vs := by
            rw [List.splitOnP_cons, if_neg (by simp [hc2]), hsplit2, List.modifyHead_cons]
          have hws : word_splitter p (c2 :: cs2) =
              (c2 :: v) :: vs.filter (fun t => !t.isEmpty) := by
            rw [ih, hcs, List.filter_cons_of_pos (by simp)]
          rw [word_splitter, if_pos hc, hws, hcs, List.modifyHead_cons,
            List.filter_cons_of_pos (by simp)]
          simp [glueRun, hc2]
        · have hcs : (c2 :: cs2).splitOnP (fun c => !p c) =
              [] :: cs2.splitOnP (fun c => !p c) := by
            rw [List.splitOnP_cons, if_pos (by simp [hc2])]
          have hws : word_splitter p (c2 :: cs2) =
              (cs2.splitOnP (fun c => !p c)).filter (fun t => !t.isEmpty) := by
            rw [ih, hcs, List.filter_cons_of_neg (by simp)]
          rw [word_splitter, if_pos hc, glueRun_sep p c c2 cs2 _ (by simpa using hc2), hws,
            hcs, List.modifyHead_cons, List.filter_cons_of_pos (by simp)]
    · rw [List.splitOnP_cons, if_pos (by simp [hc]), List.filter_cons_of_neg (by simp)]
      rw [word_splitter, if_neg hc]
      exact ih

/-- Counterexample to claim C5 as stated: for absent (None) input the
source tokenizer raises AttributeError inside text.lower() instead of
returning an empty sequence; only the inner _tokenizer guards falsy
input.  The raised error is modelled as none, which differs from the
empty token sequence the claim requires. -/
theorem tokenizer_none_counterexample :
    tokenizerOpt none = none ∧ tokenizerOpt none ≠ some [] :=
  ⟨rfl, by decide⟩

/-- Claim C5, amended: tokenizer returns an empty sequence for empty
string input (absent None input raises instead); for every other input it
lowercases the text and returns exactly the maximal runs of Unicode
letters and digits, underscore and all punctuation and whitespace acting
as separators, in left-to-right order.  The lowercase mapping and the
Unicode word-character class live in the external collaborators str.lower
and the regex engine, so the first two conjuncts quantify over every
instantiation of those parameters and hence hold at the true Unicode
tables; the concrete example of the claim is ASCII, where the tables
coincide with their ASCII fragment, and evaluates to the listed eight
tokens. -/
theorem tokenizer_spec :
    (∀ (p : Char → Bool) (lower : Char → Char), tokenizer_with p lower "" = []) ∧
    (∀ (p : Char → Bool) (lower : Char → Char) (s : String),
      tokenizer_with p lower s =
        (((s.data.map lower).splitOnP (fun c => !p c)).filter
          (fun t => !t.isEmpty)).map (fun t => (⟨t⟩ : String))) ∧
    tokenizer "\x7b\x7bHi\x7d\x7dsome \x7b\x7b\x7d\x7dText with\x7b\x7bnoth+-_!@ing\x7d\x7d   \x7b\x7bjunk\x7d\x7dspAces! + _ -\x7b\x7b\x7d\x7d" =
      ["hi", "some", "text", "with", "noth", "ing", "junk", "spaces"] := by
  refine ⟨fun p lower => rfl, fun p lower s => ?_, by decide⟩
  show _tokenizer p ⟨s.data.map lower⟩ = _
  unfold _tokenizer
  by_cases hE : (s.data.map lower).isEmpty
  · rw [if_pos hE]
    have hnil : s.data.map lower = [] := by simpa using hE
    rw [hnil, List.splitOnP_nil]
    rfl
  · rw [if_neg hE, word_splitter_eq]
    apply List.filter_eq_self.mpr
    intro a ha
    obtain ⟨t, ht, rfl⟩ := List.mem_map.mp ha
    have hne : t.isEmpty = false := by
      have := List.of_mem_filter ht
      simpa using this
    have htne : t ≠ [] := by
      intro habs
      rw [habs] at hne
      simp at hne
    simp only [ne_eq, decide_eq_true_eq]
    intro habs
    exact htne (congrArg String.data habs)

/-! ## The directory fingerprint engine

Resources, the tree walk and the save operation are external
collaborators: a Resource is embedded as a record of the attributes the
engine reads and writes, the walk output is passed in as a list, and the
save call is reported as a boolean alongside the returned resource.  The
BitAverageHaloHash similarity-hash primitive lives in this repository but
outside the sources under verification, so it is taken as a parameter.
-/

/-- A resource node as seen by the fingerprinting engine: the attributes
read (path, is_file, size, sha1) and written (the two dedicated
fingerprint fields when the schema has them, the open extra_data mapping
otherwise). -/
structure Resource where
  path : String
  is_file : Bool
  size : Nat
  sha1 : String
  has_fingerprint_fields : Bool
  directory_content_fingerprint : Option String
  directory_structure_fingerprint : Option String
  extra_data : List (String × String)

/-- UTF-8 encoding of a string to its byte values, as i.encode('utf-8'). -/
def utf8Bytes (s : String) : List Nat :=
  s.toUTF8.toList.map UInt8.toNat

/-- Modelled from the spec: the similarity-hash primitive
BitAverageHaloHash(inputs, size_in_bits).hexdigest() is code of this
repository outside the verified source; per its stated contract it maps a
list of byte strings and a bit width to a hex digest of bit_width / 4
characters.  All definitions below take it as the parameter bah. -/
def BahHash : Type :=
  List (List Nat) → Nat → String

/-- _create_directory_fingerprint from the source: drop empty inputs,
UTF-8 encode the rest, hash them at 128 bits, and prepend the count of
hashed inputs rendered as 8 zero-padded lowercase hex digits. -/
def _create_directory_fingerprint (bah : BahHash) (inputs : List String) : String :=
  let encoded := (inputs.filter (fun i => i ≠ "")).map utf8Bytes
  let bah128 := bah encoded 128
  percent08x encoded.length ++ bah128

/-- create_content_fingerprint from the source: the directory fingerprint
of the sha1 values of the resources that have one. -/
def create_content_fingerprint (bah : BahHash) (resources : List Resource) : String :=
  _create_directory_fingerprint bah
    ((resources.filter (fun r => r.sha1 ≠ "")).map (fun r => r.sha1))

/-- Python str.partition: the part of s after the first occurrence of sep,
empty when sep does not occur.  (Python raises on an empty separator; this
model returns s there, a case no caller below exercises.) -/
def partitionAfter (sep : List Char) : List Char → List Char
  | [] => []
  | c :: rest =>
    if sep.isPrefixOf (c :: rest) then (c :: rest).drop sep.length
    else partitionAfter sep rest

/-- _get_resource_subpath from the source: the resource path partitioned
after the top path, with leading slashes stripped. -/
def _get_resource_subpath (resource top : Resource) : String :=
  ⟨(partitionAfter top.path.data resource.path.data).dropWhile (fun c => c == '/')⟩

/-- Fuel-driven bit length: bitLen n is the number of binary digits of n,
zero for zero.  Called with fuel at least n, which always suffices. -/
def bitLenAux : Nat → Nat → Nat
  | 0, _ => 0
  | f + 1, n => if n = 0 then 0 else bitLenAux f (n / 2) + 1

/-- The number of binary digits of n. -/
def bitLen (n : Nat) : Nat := bitLenAux n n

/-- Division rounding the true quotient to the nearest integer, ties to
even, used to model IEEE binary64 correct rounding. -/
def roundHalfEven (num den : Nat) : Nat :=
  let q := num / den
  let r := num % den
  if 2 * r > den then q + 1
  else if 2 * r < den then q
  else if q % 2 = 1 then q + 1
  else q

/-- Python int(n / 10) for a non-negative integer n: the source divides
with /, which is correctly rounded binary64 true division, then truncates.
Modelled exactly: round n / 10 to 53 significant bits with ties to even,
then truncate toward zero (faithful below the binary64 overflow
threshold, far beyond any realistic file size). -/
def pyIntDiv10 (n : Nat) : Nat :=
  if n < 10 then 0
  else
    let b := bitLen (n / 10) - 1
    if 52 ≤ b then
      let M := roundHalfEven n (10 * 2 ^ (b - 52))
      if M = 2 ^ 53 then 2 ^ 52 * 2 ^ (b - 52 + 1) else M * 2 ^ (b - 52)
    else
      let M := roundHalfEven (n * 2 ^ (52 - b)) 10
      if M = 2 ^ 53 then 2 ^ 53 / 2 ^ (52 - b) else M / 2 ^ (52 - b)

/-- The rounded child size of create_structure_fingerprint: zero for a
falsy size, otherwise int(size / 10) * 10 under Python float division. -/
def rounded_child_size (size : Nat) : Nat :=
  if size = 0 then 0 else pyIntDiv10 size * 10

/-- The feature string one child contributes to the structure fingerprint:
the decimal rendering of the rounded size followed by the child subpath. -/
def structureFeature (directory child : Resource) : String :=
  Nat.repr (rounded_child_size child.size) ++ _get_resource_subpath child directory

/-- create_structure_fingerprint from the source: the directory
fingerprint of the feature strings of the children that have a path. -/
def create_structure_fingerprint (bah : BahHash) (directory : Resource)
    (children : List Resource) : String :=
  _create_directory_fingerprint bah
    ((children.filter (fun c => c.path ≠ "")).map (fun c => structureFeature directory c))

/-- Python dict item assignment on the extra_data mapping, modelled on the
association list: replace the key if present, append otherwise. -/
def setExtra (m : List (String × String)) (k v : String) : List (String × String) :=
  (m.filter (fun kv => kv.1 ≠ k)) ++ [(k, v)]

/-- _compute_directory_fingerprints from the source.  The walk over the
codebase is the external traversal collaborator, so its output is the
argument walked; the returned boolean records whether save was called.
When at most one non-empty descendant file exists the source returns
early: nothing is assigned, save is not called, and the directory is
unchanged. -/
def _compute_directory_fingerprints (bah : BahHash) (directory : Resource)
    (walked : List Resource) : Resource × Bool :=
  let children := walked.filter (fun r => r.is_file && r.size != 0)
  if children.length ≤ 1 then (directory, false)
  else
    let dcf := create_content_fingerprint bah children
    let d1 :=
      if directory.has_fingerprint_fields then
        { directory with directory_content_fingerprint := some dcf }
      else
        { directory with extra_data := setExtra directory.extra_data "directory_content" dcf }
    let dsf := create_structure_fingerprint bah d1 children
    let d2 :=
      if d1.has_fingerprint_fields then
        { d1 with directory_structure_fingerprint := some dsf }
      else
        { d1 with extra_data := setExtra d1.extra_data "directory_structure" dsf }
    (d2, true)

/-- A constant similarity-hash stand-in used by the witnesses below. -/
def bahConst : BahHash :=
  fun _ _ => "aaaaaaaaaaaaaaaaaaaaaaaaaaaaaaaa"

/-- A concrete directory resource used by the witnesses below. -/
def exampleDir : Resource :=
  { path := "foo/bar", is_file := false, size := 0, sha1 := "",
    has_fingerprint_fields := true, directory_content_fingerprint := none,
    directory_structure_fingerprint := none, extra_data := [] }

/-- A concrete non-empty file resource with sha1 value A, size 15. -/
def exampleFileA : Resource :=
  { path := "foo/bar/a.c", is_file := true, size := 15, sha1 := "A",
    has_fingerprint_fields := false, directory_content_fingerprint := none,
    directory_structure_fingerprint := none, extra_data := [] }

/-- A concrete non-empty file resource with sha1 value B, size 27. -/
def exampleFileB : Resource :=
  { path := "foo/bar/b.c", is_file := true, size := 27, sha1 := "B",
    has_fingerprint_fields := false, directory_content_fingerprint := none,
    directory_structure_fingerprint := none, extra_data := [] }

/-- Claim C6: a directory whose walk yields at most one descendant regular
file of non-zero size is not fingerprinted: neither fingerprint is
assigned, save is not called, and the resource is returned unchanged. -/
theorem compute_directory_fingerprints_skip (bah : BahHash) (directory : Resource)
    (walked : List Resource)
    (h : (walked.filter (fun r => r.is_file && r.size != 0)).length ≤ 1) :
    _compute_directory_fingerprints bah directory walked = (directory, false) := by
  unfold _compute_directory_fingerprints
  rw [if_pos h]

/-- Witness for claim C6: a walk returning a single non-empty file. -/
theorem compute_directory_fingerprints_skip_witness :
    (([exampleFileA] : List Resource).filter (fun r => r.is_file && r.size != 0)).length ≤ 1 ∧
    _compute_directory_fingerprints bahConst exampleDir [exampleFileA] =
      (exampleDir, false) :=
  ⟨by decide, compute_directory_fingerprints_skip bahConst exampleDir [exampleFileA] (by decide)⟩

/-- Claim C7: the first 8 hex characters of a content fingerprint decode
to the number of resources whose sha1 attribute is non-empty. -/
theorem create_content_fingerprint_count (bah : BahHash) (resources : List Resource)
    (h : (resources.filter (fun r => r.sha1 ≠ "")).length < 2 ^ 32) :
    ∃ d, split_fingerprint (create_content_fingerprint bah resources) =
      some ((resources.filter (fun r => r.sha1 ≠ "")).length, d) := by
  set features := (resources.filter (fun r => r.sha1 ≠ "")).map (fun r => r.sha1) with hfeat
  have hall : features.filter (fun i => i ≠ "") = features := by
    apply List.filter_eq_self.mpr
    intro a ha
    obtain ⟨r, hr, rfl⟩ := List.mem_map.mp ha
    have := List.of_mem_filter hr
    simpa using this
  have hlen : ((features.filter (fun i => i ≠ "")).map utf8Bytes).length =
      (resources.filter (fun r => r.sha1 ≠ "")).length := by
    rw [hall, List.length_map, hfeat, List.length_map]
  refine ⟨bah ((features.filter (fun i => i ≠ "")).map utf8Bytes) 128, ?_⟩
  have hunfold : create_content_fingerprint bah resources =
      percent08x ((features.filter (fun i => i ≠ "")).map utf8Bytes).length ++
        bah ((features.filter (fun i => i ≠ "")).map utf8Bytes) 128 := rfl
  rw [hunfold, hlen]
  exact split_fingerprint_encode _ _ h

/-- Witness for claim C7, end-to-end scenario C: a directory with exactly
two non-empty files with sha1 values A and B gives a content fingerprint
whose first 8 hex characters decode to 2. -/
theorem create_content_fingerprint_count_witness :
    (([exampleFileA, exampleFileB] : List Resource).filter
      (fun r => r.sha1 ≠ "")).length < 2 ^ 32 ∧
    ∃ d, split_fingerprint (create_content_fingerprint bahConst [exampleFileA, exampleFileB]) =
      some ((([exampleFileA, exampleFileB] : List Resource).filter
        (fun r => r.sha1 ≠ "")).length, d) :=
  ⟨by decide, create_content_fingerprint_count bahConst [exampleFileA, exampleFileB] (by decide)⟩

/-- The example directory with path d and a child of size 2^60. -/
def exampleTop : Resource :=
  { path := "d/", is_file := false, size := 0, sha1 := "",
    has_fingerprint_fields := true, directory_content_fingerprint := none,
    directory_structure_fingerprint := none, extra_data := [] }

/-- A child file of size 2^60 bytes, a value not exactly representable
after division by ten in binary64. -/
def bigChild : Resource :=
  { path := "d/big", is_file := true, size := 1152921504606846976, sha1 := "C",
    has_fingerprint_fields := false, directory_content_fingerprint := none,
    directory_structure_fingerprint := none, extra_data := [] }

/-- Claim C8 fails on the code: the source computes the rounded size with
int(child.size / 10) * 10 under Python binary64 true division, which for
size 2^60 yields 1152921504606847040, while the floor division the claim
requires yields 1152921504606846970.  This theorem evaluates the code at
the failing input and exhibits the divergence from the claimed feature
string. -/
theorem structureFeature_float_divergence :
    bigChild.size = 2 ^ 60 ∧
    structureFeature exampleTop bigChild = "1152921504606847040big" ∧
    Nat.repr (bigChild.size / 10 * 10) ++ _get_resource_subpath bigChild exampleTop =
      "1152921504606846970big" ∧
    structureFeature exampleTop bigChild ≠
      Nat.repr (bigChild.size / 10 * 10) ++ _get_resource_subpath bigChild exampleTop := by
  refine ⟨by norm_num [bigChild], by decide, by decide, by decide⟩

/-! ## The file fingerprint pipeline

get_file_fingerprint_hashes delegates file-type detection, content
reading and the ngrams sliding-window generator to external collaborators;
they enter the embedding as the flags and content of a FileContext and as
the generator parameter g.  The per-window similarity hash (default bit
width) is the parameter bah.
-/

/-- The externally observed facts about the location: whether it is a
regular file, whether its content type is text, and its text content. -/
structure FileContext where
  is_file : Bool
  is_text : Bool
  content : String

/-- The type of the external ngrams generator of the licensedcode
tokenize module: a pure function from a sequence and a window length to
the sequence of windows. -/
def NgramGen : Type 1 :=
  (α : Type) → List α → Nat → List (List α)

/-- get_file_fingerprint_hashes from the source: guard on regular text
files, tokenize, form 8-token n-grams joined by single spaces in UTF-8,
form 64-n-gram windows, run the hailstorm selector, and return the
whole-file digest (empty string when there are no n-grams) together with
the per-selected-window digests.  The empty mapping returned on the
guards is modelled as none. -/
def get_file_fingerprint_hashes (g : NgramGen) (bah : List (List Nat) → String)
    (ctx : FileContext) : Option (String × List String) :=
  if !ctx.is_file then none
  else if !ctx.is_text then none
  else
    let words := tokenizer ctx.content
    let ngs := (g String words 8).map (fun ng => utf8Bytes (String.intercalate " " ng))
    let windows := g NGram ngs 64
    let selected := select_windows windows
    let halo1 := if ngs.isEmpty then "" else bah ngs
    some (halo1, selected.map bah)

/-- Claim C9: the pipeline returns the empty mapping when the location is
not a regular file or not text; and for a text file whose n-gram sequence
is empty it returns the empty string as whole-file digest and the empty
chunk list (the generator contract gives no windows over an empty
sequence). -/
theorem get_file_fingerprint_hashes_guards (g : NgramGen) (bah : List (List Nat) → String)
    (ctx : FileContext) :
    ((ctx.is_file = false ∨ ctx.is_text = false) →
      get_file_fingerprint_hashes g bah ctx = none) ∧
    (ctx.is_file = true → ctx.is_text = true →
      g String (tokenizer ctx.content) 8 = [] →
      g NGram [] 64 = [] →
      get_file_fingerprint_hashes g bah ctx = some ("", [])) := by
  constructor
  · intro hguard
    unfold get_file_fingerprint_hashes
    rcases hguard with hf | ht
    · rw [hf]
      rfl
    · rcases hb : ctx.is_file with _ | _
      · rfl
      · rw [ht]
        rfl
  · intro hf ht hg8 hg64
    unfold get_file_fingerprint_hashes
    rw [hf, ht]
    simp only [Bool.not_true, if_false, hg8, List.map_nil, hg64, Bool.false_eq_true]
    rfl

/-- An ngram generator stub for the witness: no windows at all. -/
def gEmpty : NgramGen :=
  fun _ _ _ => []

/-- A constant per-window hash stand-in for the witness. -/
def bahStr : List (List Nat) → String :=
  fun _ => "bbbbbbbbbbbbbbbbbbbbbbbbbbbbbbbb"

/-- A regular file context whose content type is not text. -/
def ctxBinary : FileContext :=
  { is_file := true, is_text := false, content := "" }

/-- A regular text file context with empty content. -/
def ctxText : FileContext :=
  { is_file := true, is_text := true, content := "" }

/-- Witness for claim C9: a non-text file gives the empty mapping, and a
text file with no n-grams gives the empty digest and empty chunk list. -/
theorem get_file_fingerprint_hashes_guards_witness :
    get_file_fingerprint_hashes gEmpty bahStr ctxBinary = none ∧
    get_file_fingerprint_hashes gEmpty bahStr ctxText = some ("", []) :=
  ⟨(get_file_fingerprint_hashes_guards gEmpty bahStr ctxBinary).1 (Or.inr rfl),
   (get_file_fingerprint_hashes_guards gEmpty bahStr ctxText).2 rfl rfl rfl rfl⟩

end Matchcode
